import Mathlib

/-!
Verification of the checklist-react repository against its specification.

The development shallowly embeds the data model and the record/storage
operations of the application: the `ChecklistData` record shape
(src/types, as constructed in Add.saveChecklist), the pure record-level
effect of the Checklist component's task operations
(src/components/Checklist, `completeTask` and `removeInput`), the save
operations of the Add, Edit and View slides, and the namespaced
localStorage wrapper (src/storage, modelled from the spec since its
source is not part of the corpus).
-/

namespace ChecklistApp

/-- ChecklistData, the record shape persisted for one checklist
(src/types; fields as constructed in Add.saveChecklist). -/
structure ChecklistData where
  complete : Bool
  done : List String
  id : Nat
  tasks : List String
  time : Nat
  title : String
  deriving DecidableEq, Repr

/-- JSON values: the serialization domain of the storage adapter.
Records are stored as their JSON (object) representation. -/
inductive Json where
  | str : String → Json
  | num : Nat → Json
  | bool : Bool → Json
  | arr : List Json → Json
  | obj : List (String × Json) → Json

/-- Encode a list of strings as a list of JSON strings. -/
def encodeStrList (l : List String) : List Json := l.map Json.str

/-- Decode a list of JSON strings; fails on any non-string element. -/
def decodeStrList : List Json → Option (List String)
  | [] => some []
  | Json.str s :: rest => (decodeStrList rest).map (s :: ·)
  | _ => none

/-- JSON representation of a checklist record, with the field order of
the object literal in Add.saveChecklist. -/
def encodeChecklist (r : ChecklistData) : Json :=
  Json.obj [("complete", Json.bool r.complete),
            ("done", Json.arr (encodeStrList r.done)),
            ("id", Json.num r.id),
            ("tasks", Json.arr (encodeStrList r.tasks)),
            ("time", Json.num r.time),
            ("title", Json.str r.title)]

/-- Read a checklist record back out of its JSON representation. -/
def decodeChecklist : Json → Option ChecklistData
  | Json.obj [("complete", Json.bool c), ("done", Json.arr d),
              ("id", Json.num i), ("tasks", Json.arr t),
              ("time", Json.num tm), ("title", Json.str ti)] =>
    match decodeStrList d, decodeStrList t with
    | some done, some tasks => some ⟨c, done, i, tasks, tm, ti⟩
    | _, _ => none
  | _ => none

/-- Modelled from the spec: the browser's underlying key-value store
(localStorage), holding JSON-serialized values; an association list
keyed by full (namespaced) key strings. The Storage wrapper class
itself (src/storage) is absent from the corpus, so the adapter below
follows the operation descriptions of spec section 4.1. -/
abbrev Store := List (String × Json)

/-- Modelled from the spec: look up a key in the underlying store. -/
def Store.getItem (s : Store) (key : String) : Option Json :=
  (s.find? (fun e => e.1 == key)).map (·.2)

/-- Modelled from the spec: write a value under a key, overwriting any
existing entry for that key. -/
def Store.setItem (s : Store) (key : String) (v : Json) : Store :=
  s.filter (fun e => e.1 != key) ++ [(key, v)]

/-- Modelled from the spec: remove a key from the underlying store,
regardless of prior existence. -/
def Store.removeItem (s : Store) (key : String) : Store :=
  s.filter (fun e => e.1 != key)

/-- Modelled from the spec: enumerate all keys of the underlying store. -/
def Store.allKeys (s : Store) : List String := s.map (·.1)

/-- Strip a leading character sequence, returning the rest when the
sequence is indeed leading. -/
def stripPre : List Char → List Char → Option (List Char)
  | [], s => some s
  | _ :: _, [] => none
  | c :: p, d :: s => if c = d then stripPre p s else none

/-- Strip a leading string from a string. -/
def stripPreStr (p s : String) : Option String :=
  (stripPre p.data s.data).map (fun l => ⟨l⟩)

/-- Modelled from the spec: the full store key `namespace-key` used by
the storage adapter. -/
def fullKey (ns key : String) : String := ns ++ "-" ++ key

/-- Modelled from the spec: `get(key)` looks up `namespace-key` and
resolves with the parsed JSON value, or with no value when absent. -/
def Storage.get (ns key : String) (s : Store) : Option Json :=
  s.getItem (fullKey ns key)

/-- Modelled from the spec: `set(key, value)` serializes the value and
writes it under `namespace-key`. -/
def Storage.set (ns key : String) (v : Json) (s : Store) : Store :=
  s.setItem (fullKey ns key) v

/-- Modelled from the spec: `delete(key)` removes `namespace-key`. -/
def Storage.del (ns key : String) (s : Store) : Store :=
  s.removeItem (fullKey ns key)

/-- Modelled from the spec: `keys()` filters the store's keys to those
with the `namespace-` lead and resolves with the stripped remainders. -/
def Storage.keys (ns : String) (s : Store) : List String :=
  (s.allKeys).filterMap (stripPreStr (ns ++ "-"))

/-- Typed read used by the callers (`data as ChecklistData`): get, then
interpret the JSON as a checklist record. -/
def Storage.getRecord (ns key : String) (s : Store) : Option ChecklistData :=
  (Storage.get ns key s).bind decodeChecklist

/-- A set or delete call on the storage adapter. -/
inductive AdapterOp where
  | set (key : String) (v : Json)
  | del (key : String)

/-- Apply one adapter call to a store. -/
def applyAdapterOp (ns : String) (s : Store) : AdapterOp → Store
  | AdapterOp.set k v => Storage.set ns k v s
  | AdapterOp.del k => Storage.del ns k s

/-- Run a sequence of adapter calls, first to last. -/
def runAdapterOps (ns : String) (s : Store) (ops : List AdapterOp) : Store :=
  ops.foldl (applyAdapterOp ns) s

/-- Whether a delete of the given key occurs in the call sequence. -/
def hasDel (ops : List AdapterOp) (k : String) : Bool :=
  ops.any fun op => match op with
    | AdapterOp.del k' => k' == k
    | _ => false

/-- The claim's right-hand side: the key was set at some point and no
later delete of it occurred. -/
def liveKey : List AdapterOp → String → Bool
  | [], _ => false
  | AdapterOp.set k' _ :: rest, k => (k' == k && !hasDel rest k) || liveKey rest k
  | AdapterOp.del _ :: rest, k => liveKey rest k

/-- JavaScript findIndex: index of the first element satisfying the
test, or -1 when there is none (Checklist.completeTask uses it on the
`done` array). -/
def findIndex (p : String → Bool) : List String → Int
  | [] => -1
  | x :: xs => if p x then 0 else (if findIndex p xs = -1 then -1 else findIndex p xs + 1)

/-- JavaScript indexing `arr[i]` with a possibly negative index:
undefined (none) when out of range. -/
def jsIndex (d : List String) (i : Int) : Option String :=
  if i < 0 then none else d.get? i.toNat

/-- The done-array update of Checklist.completeTask
(src/components/Checklist lines 242-272): find the task's index; if the
element at that index is truthy (present and non-empty) splice it out,
otherwise push the task. -/
def toggleDone (completedTasks : List String) (task : String) : List String :=
  let index := findIndex (fun value => value == task) completedTasks
  match jsIndex completedTasks index with
  | some v => if v = "" then completedTasks ++ [task] else completedTasks.eraseIdx index.toNat
  | none => completedTasks ++ [task]

/-- Checklist.completeTask as a record transform: overwrite `done` with
the toggled array; every other field is carried over unchanged, and the
record is written to storage (one set call, see the claims below). -/
def completeTask (task : String) (r : ChecklistData) : ChecklistData :=
  { r with done := toggleDone r.done task }

/-- Record-level effect of removing the input holding `tasks[i]`:
Checklist.removeInput (lines 187-231) only acts when more than one
input is present, prunes the task from `done` when it is included
(indexOf + splice, so the first occurrence), and the task list rebuilt
from the remaining inputs on save drops position i. Inputs are
identified with the record's tasks here, one input per task. -/
def removeTask (i : Nat) (r : ChecklistData) : ChecklistData :=
  if 1 < r.tasks.length then
    match r.tasks.get? i with
    | some task =>
      { r with tasks := r.tasks.eraseIdx i,
               done := if task ∈ r.done then r.done.erase task else r.done }
    | none => r
  else r

/-- Record-level effect of adding a task through the edit form: a new
input with the given value; on save, values with positive length are
appended in order and blank inputs are dropped (Edit.saveChanges input
collection loop). -/
def addTask (s : String) (r : ChecklistData) : ChecklistData :=
  if 0 < s.length then { r with tasks := r.tasks ++ [s] } else r

/-- One user-level task operation on a checklist record. -/
inductive TaskOp where
  | add (s : String)
  | remove (i : Nat)
  | complete (i : Nat)

/-- Apply one task operation; completing targets the task shown by
input i, matching how the UI can only toggle existing inputs. -/
def applyTaskOp (r : ChecklistData) : TaskOp → ChecklistData
  | TaskOp.add s => addTask s r
  | TaskOp.remove i => removeTask i r
  | TaskOp.complete i =>
    match r.tasks.get? i with
    | some task => completeTask task r
    | none => r

/-- Run a sequence of task operations, first to last. -/
def runTaskOps (r : ChecklistData) (ops : List TaskOp) : ChecklistData :=
  ops.foldl applyTaskOp r

/-- View.setAsComplete's updated record: Object.assign of the input
data with complete set true and done replaced by the tasks array. -/
def setAsCompleteRecord (r : ChecklistData) : ChecklistData :=
  { r with complete := true, done := r.tasks }

/-- The storage writes View.setAsComplete performs: a single set call
under the record's id with the updated record. -/
def setAsCompleteWrites (r : ChecklistData) : List (String × Json) :=
  [(toString r.id, encodeChecklist (setAsCompleteRecord r))]

/-- Add.generateUUID (View.tsx lines 140-156): pick one of the eight
cryptographically random 32-bit values, add the current time in
milliseconds, and take the absolute value. The seed index is
floor(random() * 7) and so lies in 0..6, within Fin 8. -/
def generateUUID (baseArray : Fin 8 → Nat) (seed : Fin 8) (now : Nat) : Nat :=
  ((baseArray seed : Int) + (now : Int)).natAbs

/-- Add.saveChecklist (View.tsx lines 167-211): with a non-empty title
and at least one non-empty task input, build the new record and write
it (the returned value is the single record written; none means no
storage write happens at all). -/
def saveChecklist (title : String) (inputs : List String) (uuid now : Nat) :
    Option ChecklistData :=
  if 0 < title.length then
    let tasks := inputs.filter (fun input => decide (0 < input.length))
    if 0 < tasks.length then
      some { complete := false, done := [], id := uuid, tasks := tasks,
             time := now, title := title }
    else none
  else none

/-- Edit.saveChanges (Edit.tsx lines 122-161): with a non-empty title
and at least one non-empty task input, Object.assign the existing data
with the form's tasks and title and write the result (none again means
no write). -/
def saveChanges (data : ChecklistData) (title : String) (inputs : List String) :
    Option ChecklistData :=
  if 0 < title.length then
    let tasks := inputs.filter (fun input => decide (0 < input.length))
    if 0 < tasks.length then
      some { data with tasks := tasks, title := title }
    else none
  else none

/-- Validity of a record per the data model: every task entry is a
non-empty description, and `done` is a duplicate-free subset of
`tasks`. -/
def Valid (r : ChecklistData) : Prop :=
  (∀ t ∈ r.tasks, t ≠ "") ∧ r.done.Nodup ∧ ∀ t ∈ r.done, t ∈ r.tasks

theorem decodeStrList_encodeStrList (l : List String) :
    decodeStrList (encodeStrList l) = some l := by
  induction l with
  | nil => rfl
  | cons s rest ih => simp [encodeStrList, decodeStrList] at ih ⊢; simp [ih]

theorem decode_encode (r : ChecklistData) :
    decodeChecklist (encodeChecklist r) = some r := by
  cases r with
  | mk c d i t tm ti =>
    simp [encodeChecklist, decodeChecklist, decodeStrList_encodeStrList]

theorem getItem_setItem_self (s : Store) (key : String) (v : Json) :
    (s.setItem key v).getItem key = some v := by
  have hnone : (s.filter (fun e => e.1 != key)).find? (fun e => e.1 == key) = none := by
    rw [List.find?_eq_none]
    intro e he
    have := (List.mem_filter.mp he).2
    simpa [bne] using this
  simp [Store.setItem, Store.getItem, List.find?_append, hnone, List.find?]

theorem getItem_removeItem_self (s : Store) (key : String) :
    (s.removeItem key).getItem key = none := by
  have hnone : (s.filter (fun e => e.1 != key)).find? (fun e => e.1 == key) = none := by
    rw [List.find?_eq_none]
    intro e he
    have := (List.mem_filter.mp he).2
    simpa [bne] using this
  simp [Store.removeItem, Store.getItem, hnone]

/-- C1: for every record R and every prior store state, set(R.id, R)
followed by get(R.id) resolves with a record deep-equal to R: the
stored JSON decodes back to exactly R. -/
theorem set_get_roundtrip (ns : String) (R : ChecklistData) (s : Store) :
    Storage.getRecord ns (toString R.id)
      (Storage.set ns (toString R.id) (encodeChecklist R) s) = some R := by
  simp [Storage.getRecord, Storage.get, Storage.set, getItem_setItem_self,
    Option.bind, decode_encode]

/-- C7: delete(k) followed by get(k) resolves with no value, whatever
the prior store state was. -/
theorem delete_then_get_none (ns key : String) (s : Store) :
    Storage.get ns key (Storage.del ns key s) = none := by
  simp [Storage.get, Storage.del, getItem_removeItem_self]

theorem stripPre_append (p s : List Char) : stripPre p (p ++ s) = some s := by
  induction p with
  | nil => rfl
  | cons c p ih => simp [stripPre, ih]

theorem stripPre_eq_some (p : List Char) :
    ∀ s k, stripPre p s = some k → s = p ++ k := by
  induction p with
  | nil => intro s k h; simpa [stripPre] using h
  | cons c p ih =>
    intro s k h
    cases s with
    | nil => simp [stripPre] at h
    | cons d s =>
      by_cases hcd : c = d
      · subst hcd
        simp only [stripPre, if_pos rfl] at h
        simpa using ih s k h
      · simp [stripPre, hcd] at h

theorem data_append (s t : String) : (s ++ t).data = s.data ++ t.data :=
  String.data_append s t

theorem stripPreStr_eq_some (pre s k : String) :
    stripPreStr pre s = some k ↔ s = pre ++ k := by
  constructor
  · intro h
    simp only [stripPreStr, Option.map_eq_some'] at h
    obtain ⟨l, hl, hk⟩ := h
    have hs : s.data = pre.data ++ l := stripPre_eq_some _ _ _ hl
    apply String.ext
    rw [data_append, hs, ← hk]
  · intro h
    subst h
    simp only [stripPreStr, data_append, stripPre_append, Option.map_some']

theorem fullKey_eq (ns key : String) : fullKey ns key = (ns ++ "-") ++ key := by
  apply String.ext
  simp [fullKey, data_append, List.append_assoc]

theorem stripPreStr_fullKey (ns key : String) :
    stripPreStr (ns ++ "-") (fullKey ns key) = some key := by
  rw [stripPreStr_eq_some, fullKey_eq]

theorem fullKey_inj (ns k k' : String) (h : fullKey ns k = fullKey ns k') : k = k' := by
  have h1 := stripPreStr_fullKey ns k
  have h2 := stripPreStr_fullKey ns k'
  rw [h, h2] at h1
  exact (Option.some.inj h1).symm

theorem mem_keys_iff (ns : String) (s : Store) (k : String) :
    k ∈ Storage.keys ns s ↔ fullKey ns k ∈ s.allKeys := by
  simp only [Storage.keys, List.mem_filterMap]
  constructor
  · rintro ⟨K, hK, hstrip⟩
    rw [stripPreStr_eq_some] at hstrip
    rw [← fullKey_eq] at hstrip
    rwa [← hstrip]
  · intro h
    exact ⟨fullKey ns k, h, stripPreStr_fullKey ns k⟩

theorem mem_allKeys_setItem (s : Store) (K : String) (v : Json) (K' : String) :
    K' ∈ (s.setItem K v).allKeys ↔ K' = K ∨ K' ∈ s.allKeys := by
  unfold Store.setItem Store.allKeys
  rw [List.map_append, List.mem_append]
  constructor
  · rintro (h | h)
    · obtain ⟨e, he, hfst⟩ := List.mem_map.mp h
      exact Or.inr (List.mem_map.mpr ⟨e, (List.mem_filter.mp he).1, hfst⟩)
    · simp only [List.map_cons, List.map_nil, List.mem_singleton] at h
      exact Or.inl h
  · rintro (h | h)
    · subst h
      exact Or.inr (by simp)
    · obtain ⟨e, he, hfst⟩ := List.mem_map.mp h
      by_cases hK : e.1 = K
      · exact Or.inr (by simp [← hfst, hK])
      · refine Or.inl (List.mem_map.mpr ⟨e, List.mem_filter.mpr ⟨he, ?_⟩, hfst⟩)
        simpa [bne] using hK

theorem mem_allKeys_removeItem (s : Store) (K K' : String) :
    K' ∈ (s.removeItem K).allKeys ↔ K' ≠ K ∧ K' ∈ s.allKeys := by
  simp only [Store.removeItem, Store.allKeys, List.mem_map, List.mem_filter]
  constructor
  · rintro ⟨e, ⟨he, hne⟩, hfst⟩
    refine ⟨?_, e, he, hfst⟩
    subst hfst
    simpa [bne] using hne
  · rintro ⟨hne, e, he, hfst⟩
    exact ⟨e, ⟨he, by subst hfst; simpa [bne] using hne⟩, hfst⟩

theorem mem_keys_set (ns : String) (s : Store) (k v : _) (k' : String) :
    k' ∈ Storage.keys ns (Storage.set ns k v s) ↔ k' = k ∨ k' ∈ Storage.keys ns s := by
  rw [mem_keys_iff, Storage.set, mem_allKeys_setItem, mem_keys_iff]
  constructor
  · rintro (h | h)
    · exact Or.inl (fullKey_inj ns k' k h)
    · exact Or.inr h
  · rintro (h | h)
    · exact Or.inl (by rw [h])
    · exact Or.inr h

theorem mem_keys_del (ns : String) (s : Store) (k k' : String) :
    k' ∈ Storage.keys ns (Storage.del ns k s) ↔ k' ≠ k ∧ k' ∈ Storage.keys ns s := by
  rw [mem_keys_iff, Storage.del, mem_allKeys_removeItem, mem_keys_iff]
  constructor
  · rintro ⟨hne, h⟩
    exact ⟨fun he => hne (by rw [he]), h⟩
  · rintro ⟨hne, h⟩
    exact ⟨fun he => hne (fullKey_inj ns k' k he), h⟩

theorem hasDel_append (ops l : List AdapterOp) (k : String) :
    hasDel (ops ++ l) k = (hasDel ops k || hasDel l k) := by
  simp [hasDel, List.any_append]

theorem hasDel_single_set (k' : String) (k : String) (v : Json) :
    hasDel [AdapterOp.set k v] k' = false := rfl

theorem hasDel_single_del (k k' : String) :
    hasDel [AdapterOp.del k] k' = (k == k') := by
  simp [hasDel]

theorem liveKey_concat_set (ops : List AdapterOp) (k : String) (v : Json) (k' : String) :
    liveKey (ops ++ [AdapterOp.set k v]) k' = ((k == k') || liveKey ops k') := by
  induction ops with
  | nil =>
    simp [liveKey, hasDel]
  | cons op rest ih =>
    cases op with
    | set k₂ w =>
      simp only [List.cons_append, liveKey]
      cases hd : hasDel rest k' <;> cases lk : liveKey rest k' <;>
        cases e1 : (k₂ == k') <;> cases e2 : (k == k') <;>
          simp [hasDel_append, hasDel_single_set, ih, hd, lk, e1, e2]
    | del k₂ =>
      simpa only [List.cons_append, liveKey] using ih

theorem liveKey_concat_del (ops : List AdapterOp) (k k' : String) :
    liveKey (ops ++ [AdapterOp.del k]) k' = (!(k == k') && liveKey ops k') := by
  induction ops with
  | nil =>
    simp [liveKey]
  | cons op rest ih =>
    cases op with
    | set k₂ w =>
      simp only [List.cons_append, liveKey]
      cases hd : hasDel rest k' <;> cases lk : liveKey rest k' <;>
        cases e1 : (k₂ == k') <;> cases e2 : (k == k') <;>
          simp [hasDel_append, hasDel_single_del, ih, hd, lk, e1, e2]
    | del k₂ =>
      simpa only [List.cons_append, liveKey] using ih

theorem runAdapterOps_concat (ns : String) (s : Store) (ops : List AdapterOp)
    (op : AdapterOp) :
    runAdapterOps ns s (ops ++ [op]) = applyAdapterOp ns (runAdapterOps ns s ops) op := by
  simp [runAdapterOps, List.foldl_append]

/-- C6: starting from a store holding no key of the namespace, after any
finite sequence of set and delete calls, keys() holds exactly those keys
that were set and not later deleted, whatever the call order was. -/
theorem keys_exactly_live (ns : String) (s : Store) (ops : List AdapterOp)
    (h : Storage.keys ns s = []) (k : String) :
    k ∈ Storage.keys ns (runAdapterOps ns s ops) ↔ liveKey ops k = true := by
  induction ops using List.reverseRecOn with
  | nil => simp [runAdapterOps, h, liveKey]
  | append_singleton ops op ih =>
    rw [runAdapterOps_concat]
    cases op with
    | set k₂ v =>
      rw [applyAdapterOp, mem_keys_set, ih, liveKey_concat_set]
      simp only [Bool.or_eq_true, beq_iff_eq]
      constructor
      · rintro (h | h)
        · exact Or.inl h.symm
        · exact Or.inr h
      · rintro (h | h)
        · exact Or.inl h.symm
        · exact Or.inr h
    | del k₂ =>
      rw [applyAdapterOp, mem_keys_del, ih, liveKey_concat_del]
      simp only [Bool.and_eq_true, Bool.not_eq_true', beq_eq_false_iff_ne, ne_eq]
      constructor
      · rintro ⟨hne, h⟩
        exact ⟨fun he => hne he.symm, h⟩
      · rintro ⟨hne, h⟩
        exact ⟨fun he => hne he.symm, h⟩

/-- Witness for C6 at a concrete store and call sequence. -/
theorem keys_exactly_live_witness :
    Storage.keys "checklist" ([] : Store) = [] ∧
      ("2" ∈ Storage.keys "checklist"
          (runAdapterOps "checklist" []
            [AdapterOp.set "1" (Json.str "x"), AdapterOp.del "1",
             AdapterOp.set "2" (Json.bool true)]) ↔
        liveKey [AdapterOp.set "1" (Json.str "x"), AdapterOp.del "1",
             AdapterOp.set "2" (Json.bool true)] "2" = true) :=
  ⟨rfl, keys_exactly_live "checklist" [] _ rfl "2"⟩

theorem ne_empty_of_length_pos (s : String) (h : 0 < s.length) : s ≠ "" := by
  intro he
  subst he
  simp at h

theorem findIndex_eq_neg_of_notMem (d : List String) (t : String) (h : t ∉ d) :
    findIndex (fun value => value == t) d = -1 := by
  induction d with
  | nil => rfl
  | cons a d ih =>
    have ha : (a == t) = false := by
      simp only [beq_eq_false_iff_ne, ne_eq]
      rintro rfl
      exact h (List.mem_cons_self a d)
    have hd : t ∉ d := fun hm => h (List.mem_cons_of_mem a hm)
    rw [findIndex, ha, if_neg (by simp), ih hd, if_pos rfl]

theorem findIndex_eq_of_mem (d : List String) (t : String) (h : t ∈ d) :
    ∃ n : Nat, findIndex (fun value => value == t) d = (n : Int) ∧
      d.get? n = some t ∧ d.eraseIdx n = d.erase t := by
  induction d with
  | nil => cases h
  | cons a d ih =>
    by_cases hat : a = t
    · subst hat
      refine ⟨0, ?_, rfl, ?_⟩
      · rw [findIndex, if_pos (by simp)]
        rfl
      · rw [List.erase_cons_head]
        rfl
    · have ht : t ∈ d := by
        rcases List.mem_cons.mp h with h | h
        · exact absurd h.symm hat
        · exact h
      obtain ⟨n, hfi, hget, herase⟩ := ih ht
      refine ⟨n + 1, ?_, by simpa using hget, ?_⟩
      · have hne : ¬ ((a == t) = true) := by
          simp only [beq_iff_eq]
          exact hat
        rw [findIndex, if_neg hne, hfi, if_neg (by omega)]
        push_cast
        ring
      · show a :: d.eraseIdx n = (a :: d).erase t
        rw [herase, List.erase_cons_tail (by simpa using hat)]

theorem toggleDone_eq (d : List String) (t : String) (ht : t ≠ "") :
    toggleDone d t = if t ∈ d then d.erase t else d ++ [t] := by
  by_cases hmem : t ∈ d
  · obtain ⟨n, hfi, hget, herase⟩ := findIndex_eq_of_mem d t hmem
    rw [toggleDone]
    simp only [hfi, jsIndex]
    rw [if_neg (by omega), Int.toNat_natCast, hget]
    show (if t = "" then d ++ [t] else d.eraseIdx n) = _
    rw [if_neg ht, if_pos hmem, herase]
  · have hfi := findIndex_eq_neg_of_notMem d t hmem
    rw [toggleDone]
    simp only [hfi, jsIndex]
    rw [if_pos (by omega), if_neg hmem]

/-- C4 counterexample: with the empty-string task already present in
done, completeTask pushes a second copy instead of removing it, so
membership is not toggled. -/
theorem completeTask_empty_cex :
    "" ∈ (⟨false, [""], 3, [""], 0, "T"⟩ : ChecklistData).done ∧
    (completeTask "" ⟨false, [""], 3, [""], 0, "T"⟩).done = ["", ""] ∧
    "" ∈ (completeTask "" ⟨false, [""], 3, [""], 0, "T"⟩).done := by
  decide

/-- C4 amended: for every non-empty task string t, completeTask appends
t to done when absent and erases its first occurrence when present (so
membership is toggled whenever done is duplicate-free), leaving every
other field unchanged. -/
theorem completeTask_toggle (r : ChecklistData) (t : String) (ht : t ≠ "") :
    ((t ∈ r.done → (completeTask t r).done = r.done.erase t ∧
        (r.done.Nodup → t ∉ (completeTask t r).done)) ∧
      (t ∉ r.done → (completeTask t r).done = r.done ++ [t])) ∧
    (completeTask t r).complete = r.complete ∧ (completeTask t r).id = r.id ∧
    (completeTask t r).tasks = r.tasks ∧ (completeTask t r).time = r.time ∧
    (completeTask t r).title = r.title := by
  have hd : (completeTask t r).done = toggleDone r.done t := rfl
  refine ⟨⟨?_, ?_⟩, rfl, rfl, rfl, rfl, rfl⟩
  · intro hmem
    have he : (completeTask t r).done = r.done.erase t := by
      rw [hd, toggleDone_eq r.done t ht, if_pos hmem]
    refine ⟨he, fun hnd hc => ?_⟩
    rw [he] at hc
    exact (hnd.mem_erase_iff.mp hc).1 rfl
  · intro hmem
    rw [hd, toggleDone_eq r.done t ht, if_neg hmem]

/-- Witness for C4's amended theorem at a concrete record. -/
theorem completeTask_toggle_witness :
    (completeTask "A" ⟨false, ["A"], 1, ["A"], 0, "T"⟩).done =
      (["A"] : List String).erase "A" :=
  ((completeTask_toggle ⟨false, ["A"], 1, ["A"], 0, "T"⟩ "A" (by decide)).1.1
    (by decide)).1

/-- C5 counterexample: on a single-task checklist the removal flow is a
no-op (the component requires more than one input), so the task stays
in done. -/
theorem removeTask_single_cex :
    "A" ∈ (⟨false, ["A"], 7, ["A"], 0, "T"⟩ : ChecklistData).tasks ∧
    "A" ∈ (⟨false, ["A"], 7, ["A"], 0, "T"⟩ : ChecklistData).done ∧
    removeTask 0 ⟨false, ["A"], 7, ["A"], 0, "T"⟩ = ⟨false, ["A"], 7, ["A"], 0, "T"⟩ ∧
    "A" ∈ (removeTask 0 ⟨false, ["A"], 7, ["A"], 0, "T"⟩).done := by
  decide

/-- Unfolding lemma for removeTask when the guard holds and position i
exists. -/
theorem removeTask_eq (r : ChecklistData) (i : Nat) (task : String)
    (hlen : 1 < r.tasks.length) (hget : r.tasks.get? i = some task) :
    (removeTask i r).tasks = r.tasks.eraseIdx i ∧
    (removeTask i r).done = r.done.erase task ∧
    (removeTask i r).id = r.id ∧ (removeTask i r).title = r.title ∧
    (removeTask i r).time = r.time ∧ (removeTask i r).complete = r.complete := by
  have hdone : (if task ∈ r.done then r.done.erase task else r.done) =
      r.done.erase task := by
    by_cases h : task ∈ r.done
    · rw [if_pos h]
    · rw [if_neg h, List.erase_of_not_mem h]
  unfold removeTask
  rw [if_pos hlen, hget]
  exact ⟨rfl, hdone, rfl, rfl, rfl, rfl⟩

theorem removeTask_id_of_not_lt (r : ChecklistData) (i : Nat)
    (hlen : ¬ 1 < r.tasks.length) : removeTask i r = r := by
  unfold removeTask
  rw [if_neg hlen]

theorem removeTask_id_of_get_none (r : ChecklistData) (i : Nat)
    (hlen : 1 < r.tasks.length) (hget : r.tasks.get? i = none) :
    removeTask i r = r := by
  unfold removeTask
  rw [if_pos hlen, hget]

/-- C5 amended: on a checklist with more than one task, removing the
task at position i drops that entry from tasks and erases its first
occurrence from done (so it leaves done entirely when done is
duplicate-free); every other field is unchanged. -/
theorem removeTask_prunes_done (r : ChecklistData) (i : Nat) (task : String)
    (hlen : 1 < r.tasks.length) (hget : r.tasks.get? i = some task) :
    (removeTask i r).tasks = r.tasks.eraseIdx i ∧
    (removeTask i r).done = r.done.erase task ∧
    (r.done.Nodup → task ∉ (removeTask i r).done) ∧
    (removeTask i r).id = r.id ∧ (removeTask i r).title = r.title ∧
    (removeTask i r).time = r.time ∧ (removeTask i r).complete = r.complete := by
  obtain ⟨h1, h2, h3, h4, h5, h6⟩ := removeTask_eq r i task hlen hget
  refine ⟨h1, h2, ?_, h3, h4, h5, h6⟩
  intro hnd hc
  rw [h2] at hc
  exact (hnd.mem_erase_iff.mp hc).1 rfl

/-- Witness for C5's amended theorem at the spec's scenario record. -/
theorem removeTask_prunes_done_witness :
    (removeTask 0 ⟨false, ["A"], 1, ["A", "B"], 5, "G"⟩).tasks =
        (["A", "B"] : List String).eraseIdx 0 ∧
    (removeTask 0 ⟨false, ["A"], 1, ["A", "B"], 5, "G"⟩).done =
        (["A"] : List String).erase "A" :=
  ⟨(removeTask_prunes_done ⟨false, ["A"], 1, ["A", "B"], 5, "G"⟩ 0 "A"
      (by decide) (by decide)).1,
   (removeTask_prunes_done ⟨false, ["A"], 1, ["A", "B"], 5, "G"⟩ 0 "A"
      (by decide) (by decide)).2.1⟩

theorem mem_eraseIdx_of_ne (l : List String) (i : Nat) (x task : String)
    (hget : l.get? i = some task) (hx : x ∈ l) (hne : x ≠ task) :
    x ∈ l.eraseIdx i := by
  induction l generalizing i with
  | nil => cases hx
  | cons a l ih =>
    cases i with
    | zero =>
      have ha : a = task := by simpa using hget
      rcases List.mem_cons.mp hx with h | h
      · exact absurd (h.trans ha) hne
      · simpa [List.eraseIdx] using h
    | succ i =>
      rcases List.mem_cons.mp hx with h | h
      · exact h ▸ List.mem_cons_self _ _
      · exact List.mem_cons_of_mem a (ih i (by simpa using hget) h)

theorem addTask_eq_of_pos (r : ChecklistData) (s : String) (hs : 0 < s.length) :
    addTask s r = { r with tasks := r.tasks ++ [s] } := by
  unfold addTask
  rw [if_pos hs]

theorem addTask_id_of_empty (r : ChecklistData) (s : String) (hs : ¬ 0 < s.length) :
    addTask s r = r := by
  unfold addTask
  rw [if_neg hs]

theorem valid_applyTaskOp (r : ChecklistData) (op : TaskOp) (h : Valid r) :
    Valid (applyTaskOp r op) := by
  obtain ⟨hne, hnd, hsub⟩ := h
  cases op with
  | add s =>
    show Valid (addTask s r)
    by_cases hs : 0 < s.length
    · rw [addTask_eq_of_pos r s hs]
      refine ⟨?_, hnd, ?_⟩
      · intro t htmem
        rcases List.mem_append.mp htmem with hm | hm
        · exact hne t hm
        · rw [List.mem_singleton.mp hm]
          exact ne_empty_of_length_pos s hs
      · intro t htd
        exact List.mem_append_left _ (hsub t htd)
    · rw [addTask_id_of_empty r s hs]
      exact ⟨hne, hnd, hsub⟩
  | remove i =>
    show Valid (removeTask i r)
    by_cases hlen : 1 < r.tasks.length
    · cases hget : r.tasks.get? i with
      | none =>
        rw [removeTask_id_of_get_none r i hlen hget]
        exact ⟨hne, hnd, hsub⟩
      | some task =>
        obtain ⟨h1, h2, _, _, _, _⟩ := removeTask_eq r i task hlen hget
        refine ⟨?_, ?_, ?_⟩
        · intro t htm
          rw [h1] at htm
          exact hne t (List.mem_of_mem_eraseIdx htm)
        · rw [h2]
          exact hnd.erase task
        · intro t htd
          rw [h2] at htd
          rw [h1]
          obtain ⟨htne, htdd⟩ := hnd.mem_erase_iff.mp htd
          exact mem_eraseIdx_of_ne _ _ _ _ hget (hsub t htdd) htne
    · rw [removeTask_id_of_not_lt r i hlen]
      exact ⟨hne, hnd, hsub⟩
  | complete i =>
    cases hget : r.tasks.get? i with
    | none =>
      have ha : applyTaskOp r (TaskOp.complete i) = r := by
        simp only [applyTaskOp]
        rw [hget]
      rw [ha]
      exact ⟨hne, hnd, hsub⟩
    | some task =>
      have ha : applyTaskOp r (TaskOp.complete i) = completeTask task r := by
        simp only [applyTaskOp]
        rw [hget]
      rw [ha]
      have htask : task ∈ r.tasks := List.get?_mem hget
      have htne : task ≠ "" := hne task htask
      have hdone : (completeTask task r).done =
          if task ∈ r.done then r.done.erase task else r.done ++ [task] :=
        toggleDone_eq r.done task htne
      refine ⟨hne, ?_, ?_⟩
      · rw [hdone]
        by_cases hmem : task ∈ r.done
        · rw [if_pos hmem]
          exact hnd.erase task
        · rw [if_neg hmem]
          refine hnd.append (List.nodup_singleton task) ?_
          intro a ha hb
          rw [List.mem_singleton.mp hb] at ha
          exact hmem ha
      · intro t htd
        rw [hdone] at htd
        show t ∈ r.tasks
        by_cases hmem : task ∈ r.done
        · rw [if_pos hmem] at htd
          exact hsub t (List.mem_of_mem_erase htd)
        · rw [if_neg hmem] at htd
          rcases List.mem_append.mp htd with hm | hm
          · exact hsub t hm
          · rw [List.mem_singleton.mp hm]
            exact htask

theorem valid_runTaskOps (r : ChecklistData) (ops : List TaskOp) (h : Valid r) :
    Valid (runTaskOps r ops) := by
  induction ops generalizing r with
  | nil => exact h
  | cons op ops ih => exact ih (applyTaskOp r op) (valid_applyTaskOp r op h)

/-- C2 amended: for every checklist record whose task entries are all
non-empty and whose done list is a duplicate-free subset of tasks, done
remains a subset of tasks after any finite sequence of add-task,
remove-task and complete-task operations. -/
theorem done_subset_tasks_ops (r : ChecklistData) (ops : List TaskOp)
    (hne : ∀ t ∈ r.tasks, t ≠ "") (hnd : r.done.Nodup)
    (hsub : ∀ t ∈ r.done, t ∈ r.tasks) :
    ∀ t ∈ (runTaskOps r ops).done, t ∈ (runTaskOps r ops).tasks :=
  (valid_runTaskOps r ops ⟨hne, hnd, hsub⟩).2.2

/-- C2 counterexample: a record with the empty string as its only task
satisfies the subset invariant, yet completing it twice duplicates it in
done, and a later removal leaves done containing a string that is no
longer in tasks. -/
theorem done_subset_tasks_cex :
    ((⟨false, [], 1, [""], 0, "T"⟩ : ChecklistData).done.Nodup ∧
      (∀ t ∈ (⟨false, [], 1, [""], 0, "T"⟩ : ChecklistData).done,
        t ∈ (⟨false, [], 1, [""], 0, "T"⟩ : ChecklistData).tasks)) ∧
    ¬ (∀ t ∈ (runTaskOps ⟨false, [], 1, [""], 0, "T"⟩
          [TaskOp.complete 0, TaskOp.complete 0, TaskOp.add "B",
           TaskOp.remove 0]).done,
        t ∈ (runTaskOps ⟨false, [], 1, [""], 0, "T"⟩
          [TaskOp.complete 0, TaskOp.complete 0, TaskOp.add "B",
           TaskOp.remove 0]).tasks) := by
  decide

/-- Witness for C2's amended theorem at a concrete record and sequence. -/
theorem done_subset_tasks_ops_witness :
    "Milk" ∈ (runTaskOps ⟨false, [], 1, ["Milk"], 0, "G"⟩ [TaskOp.complete 0]).tasks :=
  done_subset_tasks_ops ⟨false, [], 1, ["Milk"], 0, "G"⟩ [TaskOp.complete 0]
    (by decide) (by decide) (by decide) "Milk" (by decide)

/-- C3: View.setAsComplete performs exactly one storage write, under the
record's id, and the written record decodes to the input record with
done replaced by tasks and complete set true. -/
theorem setAsComplete_single_write (r : ChecklistData) :
    ∃ w, setAsCompleteWrites r = [w] ∧ w.1 = toString r.id ∧
      decodeChecklist w.2 = some ⟨true, r.tasks, r.id, r.tasks, r.time, r.title⟩ := by
  cases r with
  | mk c d i t tm ti =>
    refine ⟨(toString i, encodeChecklist (setAsCompleteRecord ⟨c, d, i, t, tm, ti⟩)),
      rfl, rfl, ?_⟩
    rw [decode_encode]
    rfl

/-- C8: when Edit.saveChanges writes, the written record takes title and
the filtered task inputs from the form, and keeps id, time, done and
complete from the input record. -/
theorem saveChanges_frame (data : ChecklistData) (title : String)
    (inputs : List String) (w : ChecklistData)
    (h : saveChanges data title inputs = some w) :
    w.title = title ∧
    w.tasks = inputs.filter (fun input => decide (0 < input.length)) ∧
    w.id = data.id ∧ w.time = data.time ∧ w.done = data.done ∧
    w.complete = data.complete := by
  simp only [saveChanges] at h
  split at h
  · split at h
    · obtain rfl := Option.some.inj h
      exact ⟨rfl, rfl, rfl, rfl, rfl, rfl⟩
    · cases h
  · cases h

/-- Witness for C8 at a concrete record and form state. -/
theorem saveChanges_frame_witness :
    (⟨false, ["A"], 9, ["A", "B"], 2, "New"⟩ : ChecklistData).title = "New" :=
  (saveChanges_frame ⟨false, ["A"], 9, ["A"], 2, "Old"⟩ "New" ["A", "", "B"]
    ⟨false, ["A"], 9, ["A", "B"], 2, "New"⟩ (by decide)).1

/-- C9 counterexample: with a zero random draw and timestamp 0, the
generated id is 0, which is not positive. -/
theorem generateUUID_zero_cex :
    generateUUID (fun _ => 0) 0 0 = 0 ∧ ¬ 0 < generateUUID (fun _ => 0) 0 0 := by
  decide

/-- C9 amended: the generated id is positive whenever the timestamp is
positive or the selected random draw is non-zero. -/
theorem generateUUID_pos (baseArray : Fin 8 → Nat) (seed : Fin 8) (now : Nat)
    (h : 0 < now ∨ 0 < baseArray seed) : 0 < generateUUID baseArray seed now := by
  rcases h with h | h <;> · simp only [generateUUID]; omega

/-- Witness for C9's amended theorem at a concrete draw. -/
theorem generateUUID_pos_witness : 0 < generateUUID (fun _ => 5) 0 0 :=
  generateUUID_pos (fun _ => 5) 0 0 (Or.inr (by decide))

/-- C10: every record Add.saveChecklist writes has empty done, complete
false, a non-empty title and a non-empty list of non-empty tasks; with an
empty title or no non-empty task input it performs no write at all. -/
theorem saveChecklist_valid (title : String) (inputs : List String) (uuid now : Nat) :
    (∀ rec, saveChecklist title inputs uuid now = some rec →
      rec.done = [] ∧ rec.complete = false ∧ rec.title ≠ "" ∧ rec.tasks ≠ [] ∧
      ∀ t ∈ rec.tasks, t ≠ "") ∧
    ((title = "" ∨ ∀ s ∈ inputs, s = "") →
      saveChecklist title inputs uuid now = none) := by
  constructor
  · intro rec h
    simp only [saveChecklist] at h
    split at h
    case isTrue htitle =>
      split at h
      case isTrue htasks =>
        obtain rfl := Option.some.inj h
        refine ⟨rfl, rfl, ne_empty_of_length_pos _ htitle, ?_, ?_⟩
        · exact List.length_pos.mp htasks
        · intro t ht
          have hmem := List.mem_filter.mp ht
          exact ne_empty_of_length_pos t (by simpa using hmem.2)
      case isFalse => cases h
    case isFalse => cases h
  · intro h
    rcases h with h | h
    · subst h
      simp [saveChecklist]
    · simp only [saveChecklist]
      split
      · have hfil : inputs.filter (fun input => decide (0 < input.length)) = [] := by
          rw [List.filter_eq_nil_iff]
          intro a ha
          simp [h a ha]
        rw [hfil]
        simp
      · rfl

/-- Witness for C10 at concrete form states: a successful save has empty
done, and an all-blank task list produces no write. -/
theorem saveChecklist_valid_witness :
    (⟨false, [], 4, ["Milk"], 9, "G"⟩ : ChecklistData).done = ([] : List String) ∧
    saveChecklist "G" ["", ""] 4 9 = none :=
  ⟨((saveChecklist_valid "G" ["Milk", ""] 4 9).1 ⟨false, [], 4, ["Milk"], 9, "G"⟩
      (by decide)).1,
   (saveChecklist_valid "G" ["", ""] 4 9).2 (Or.inr (by decide))⟩

end ChecklistApp
